import Mathlib

/-!
Shallow embedding of the rBoot runtime API (rboot-api.h) of the SmartFarm
repository, together with proofs of the specified properties.

The repository ships only the interface header `rboot-api.h`; the
implementation file is not part of the tree.  Every operation below is
therefore modelled from the specification document (data model §3,
component design §4) and from the doc comments of the header, and each
such definition is marked `Modelled from the spec:`.

Flash memory is modelled as a total function from byte addresses to byte
values, the injected "Flash Primitive Adapter" capability of the spec.
-/

/-- Flash sector size of the target device (4 KiB sectors). -/
def SECTOR_SIZE : Nat := 4096

/-! ### Generic list/byte helpers used by the embedding -/

/-- Read `n` consecutive bytes from flash `f` starting at address `off`. -/
def readRange (f : Nat → Nat) (off n : Nat) : List Nat :=
  match n with
  | 0 => []
  | m + 1 => f off :: readRange f (off + 1) m

/-- The list of `n` consecutive naturals starting at `lo`. -/
def natRange (lo n : Nat) : List Nat :=
  match n with
  | 0 => []
  | m + 1 => lo :: natRange (lo + 1) m

theorem length_readRange (f : Nat → Nat) (off n : Nat) :
    (readRange f off n).length = n := by
  induction n generalizing off with
  | zero => rfl
  | succ m ih => simp [readRange, ih]

theorem getD_readRange (f : Nat → Nat) (off n i : Nat) (h : i < n) :
    (readRange f off n).getD i 0 = f (off + i) := by
  induction n generalizing off i with
  | zero => omega
  | succ m ih =>
    cases i with
    | zero => simp [readRange]
    | succ j =>
      have := ih (off + 1) j (by omega)
      simpa [readRange, Nat.add_assoc, Nat.add_comm 1 j] using this

theorem readRange_split (f : Nat → Nat) (off n len : Nat) (h : n ≤ len) :
    readRange f off len = readRange f off n ++ readRange f (off + n) (len - n) := by
  induction n generalizing off len with
  | zero => simp [readRange]
  | succ m ih =>
    cases len with
    | zero => omega
    | succ l =>
      have h1 : off + (m + 1) = (off + 1) + m := by omega
      have h2 : l + 1 - (m + 1) = l - m := by omega
      simp only [readRange, List.cons_append]
      rw [h1, h2, ← ih (off + 1) l (by omega)]

theorem readRange_congr (f g : Nat → Nat) (off n : Nat)
    (h : ∀ a, off ≤ a → a < off + n → f a = g a) :
    readRange f off n = readRange g off n := by
  induction n generalizing off with
  | zero => rfl
  | succ m ih =>
    have h0 : f off = g off := h off (Nat.le_refl _) (by omega)
    have hr : readRange f (off + 1) m = readRange g (off + 1) m := by
      apply ih
      intro a ha ha'
      apply h a <;> omega
    simp [readRange, h0, hr]

theorem mem_natRange (lo n s : Nat) : s ∈ natRange lo n ↔ lo ≤ s ∧ s < lo + n := by
  induction n generalizing lo with
  | zero => simp [natRange]
  | succ m ih =>
    simp [natRange, ih (lo + 1)]
    omega

theorem getD_append_left (l₁ l₂ : List Nat) (i : Nat) (d : Nat) (h : i < l₁.length) :
    (l₁ ++ l₂).getD i d = l₁.getD i d := by
  induction l₁ generalizing i with
  | nil => simp at h
  | cons b bs ih =>
    cases i with
    | zero => rfl
    | succ j => simpa using ih j (by simpa using h)

theorem getD_append_right (l₁ l₂ : List Nat) (i : Nat) (d : Nat) (h : l₁.length ≤ i) :
    (l₁ ++ l₂).getD i d = l₂.getD (i - l₁.length) d := by
  induction l₁ generalizing i with
  | nil => simp
  | cons b bs ih =>
    cases i with
    | zero => simp at h
    | succ j =>
      have := ih j (by simpa using h)
      simpa using this

theorem getD_take (l : List Nat) (n i : Nat) (d : Nat) (h : i < n) :
    (l.take n).getD i d = l.getD i d := by
  induction l generalizing n i with
  | nil => simp
  | cons b bs ih =>
    cases n with
    | zero => omega
    | succ m =>
      cases i with
      | zero => rfl
      | succ j => simpa using ih m j (by omega)

theorem getD_drop (l : List Nat) (m i : Nat) (d : Nat) :
    (l.drop m).getD i d = l.getD (m + i) d := by
  induction l generalizing m with
  | nil => simp
  | cons b bs ih =>
    cases m with
    | zero => simp
    | succ k =>
      have he : k + 1 + i = (k + i) + 1 := by omega
      rw [List.drop_succ_cons, ih k, he, List.getD_cons_succ]

/-! ### Flash primitive adapter model -/

/-- Write the bytes `bs` to flash `f` one after another starting at `addr`
(word grouping does not change the resulting contents, so the model writes
byte-wise). -/
def writeBytes : (Nat → Nat) → Nat → List Nat → Nat → Nat
  | f, _, [] => f
  | f, addr, b :: bs => writeBytes (Function.update f addr b) (addr + 1) bs

/-- Erase flash sector `s`: every byte of the sector becomes `0xFF`. -/
def eraseSector (f : Nat → Nat) (s : Nat) : Nat → Nat :=
  fun a => if a / SECTOR_SIZE = s then 255 else f a

/-- Erase the listed sectors in order. -/
def eraseSectors (f : Nat → Nat) (ss : List Nat) : Nat → Nat :=
  ss.foldl eraseSector f

theorem writeBytes_apply (bs : List Nat) (f : Nat → Nat) (addr a : Nat) :
    writeBytes f addr bs a =
      if addr ≤ a ∧ a < addr + bs.length then bs.getD (a - addr) 0 else f a := by
  induction bs generalizing f addr with
  | nil =>
    simp only [writeBytes, List.length_nil, Nat.add_zero]
    rw [if_neg (by omega)]
  | cons b rest ih =>
    simp only [writeBytes, List.length_cons]
    rw [ih]
    by_cases h1 : addr + 1 ≤ a ∧ a < addr + 1 + rest.length
    · rw [if_pos h1, if_pos (by omega : addr ≤ a ∧ a < addr + (rest.length + 1))]
      have hne : a - addr = (a - (addr + 1)) + 1 := by omega
      rw [hne, List.getD_cons_succ]
    · rw [if_neg h1]
      by_cases h2 : a = addr
      · subst h2
        rw [Function.update_same, if_pos (by omega : a ≤ a ∧ a < a + (rest.length + 1))]
        simp
      · rw [Function.update_noteq h2,
          if_neg (by omega : ¬(addr ≤ a ∧ a < addr + (rest.length + 1)))]

theorem eraseSectors_apply (ss : List Nat) (f : Nat → Nat) (a : Nat) :
    eraseSectors f ss a = if a / SECTOR_SIZE ∈ ss then 255 else f a := by
  induction ss generalizing f with
  | nil => simp [eraseSectors]
  | cons s rest ih =>
    show eraseSectors (eraseSector f s) rest a = _
    rw [ih]
    by_cases h1 : a / SECTOR_SIZE ∈ rest
    · rw [if_pos h1, if_pos (by simp [h1])]
    · rw [if_neg h1]
      by_cases h2 : a / SECTOR_SIZE = s
      · rw [if_pos (by simp [h2]), eraseSector, if_pos h2]
      · rw [if_neg (by simp [h1, h2]), eraseSector, if_neg h2]

/-! ### Write staging buffer (§4.3) -/

/-- Flash write status, translated from the `rboot_write_status` struct of
`rboot-api.h`.  `extra_bytes` holds the residual (non-word-aligned) bytes
carried from the previous write call; in the C struct these occupy the
first `extra_count` cells of a 4-byte array, here they are the list of the
meaningful bytes. -/
structure rboot_write_status where
  start_addr : Nat
  start_sector : Nat
  last_sector_erased : Int
  extra_bytes : List Nat
deriving Repr, DecidableEq

/-- Number of residual bytes currently carried (the `extra_count` field of
the C struct). -/
def rboot_write_status.extra_count (st : rboot_write_status) : Nat :=
  st.extra_bytes.length

/-- Modelled from the spec: `write_init(start_addr)` initialises a session
with `last_sector_erased = -1`, `extra_count = 0` and
`start_sector = sector_containing(start_addr)` (§4.3). -/
def rboot_write_init (start_addr : Nat) : rboot_write_status :=
  { start_addr := start_addr
    start_sector := start_addr / SECTOR_SIZE
    last_sector_erased := -1
    extra_bytes := [] }

/-- The sectors that a write of `wlen` bytes at `addr` must erase first:
the sectors containing bytes of the write range that lie beyond
`last_sector_erased` (§4.3: "Before writing into a sector not yet erased in
this session ... erases that sector first"). -/
def sectorsToErase (lse : Int) (addr wlen : Nat) : List Nat :=
  (natRange (addr / SECTOR_SIZE) ((addr + wlen - 1) / SECTOR_SIZE + 1 - addr / SECTOR_SIZE)).filter
    (fun s => decide (lse < (s : Int)))

/-- Result of one `rboot_write_flash` call: the new flash contents, the
updated status, the sectors erased during the call (in order) and the
success flag. -/
structure WriteResult where
  flash : Nat → Nat
  status : rboot_write_status
  erased : List Nat
  ok : Bool

/-- Modelled from the spec: `write_flash(status, data, len)` (§4.3).  The
residual bytes of the previous call are prepended to the new data, every
complete word of the combined buffer is written at the current position
(erasing not-yet-erased sectors of the write range first), and the
trailing bytes that do not complete a word are stored back as residue.
The flash primitives are modelled as succeeding, so the call returns true. -/
def rboot_write_flash (flash : Nat → Nat) (st : rboot_write_status) (data : List Nat) :
    WriteResult :=
  let buffer := st.extra_bytes ++ data
  let wlen := buffer.length - buffer.length % 4
  if wlen = 0 then
    { flash := flash
      status := { st with extra_bytes := buffer }
      erased := []
      ok := true }
  else
    let sects := sectorsToErase st.last_sector_erased st.start_addr wlen
    { flash := writeBytes (eraseSectors flash sects) st.start_addr (buffer.take wlen)
      status :=
        { start_addr := st.start_addr + wlen
          start_sector := st.start_sector
          last_sector_erased :=
            max st.last_sector_erased (((st.start_addr + wlen - 1) / SECTOR_SIZE : Nat) : Int)
          extra_bytes := buffer.drop wlen }
      erased := sects
      ok := true }

/-- Run a sequence of `rboot_write_flash` calls, threading flash contents
and write status. -/
def writeMany (p : (Nat → Nat) × rboot_write_status) (chunks : List (List Nat)) :
    (Nat → Nat) × rboot_write_status :=
  chunks.foldl (fun q c => ((rboot_write_flash q.1 q.2 c).flash, (rboot_write_flash q.1 q.2 c).status)) p

theorem mem_sectorsToErase (lse : Int) (addr wlen s : Nat) :
    s ∈ sectorsToErase lse addr wlen ↔
      addr / SECTOR_SIZE ≤ s ∧ s ≤ (addr + wlen - 1) / SECTOR_SIZE ∧ lse < (s : Int) := by
  unfold sectorsToErase
  rw [List.mem_filter, mem_natRange]
  simp only [decide_eq_true_eq, SECTOR_SIZE]
  omega


theorem WriteResult.flash_mk (F : Nat → Nat) (S : rboot_write_status) (E : List Nat) (O : Bool) :
    (WriteResult.mk F S E O).flash = F := rfl

theorem WriteResult.status_mk (F : Nat → Nat) (S : rboot_write_status) (E : List Nat) (O : Bool) :
    (WriteResult.mk F S E O).status = S := rfl

theorem write_flash_eq_small (flash : Nat → Nat) (a ssec : Nat) (lse : Int) (e data : List Nat)
    (h : (e ++ data).length < 4) :
    rboot_write_flash flash ⟨a, ssec, lse, e⟩ data =
      ⟨flash, ⟨a, ssec, lse, e ++ data⟩, [], true⟩ := by
  simp only [rboot_write_flash]
  split
  · rfl
  · rename_i hc
    exfalso
    exact hc (by omega)

theorem write_flash_eq_pos (flash : Nat → Nat) (a ssec : Nat) (lse : Int) (e data : List Nat)
    (h : 4 ≤ (e ++ data).length) :
    rboot_write_flash flash ⟨a, ssec, lse, e⟩ data =
      ⟨writeBytes
          (eraseSectors flash
            (sectorsToErase lse a ((e ++ data).length - (e ++ data).length % 4)))
          a ((e ++ data).take ((e ++ data).length - (e ++ data).length % 4)),
        ⟨a + ((e ++ data).length - (e ++ data).length % 4), ssec,
          max lse
            (((a + ((e ++ data).length - (e ++ data).length % 4) - 1) / SECTOR_SIZE : Nat) : Int),
          (e ++ data).drop ((e ++ data).length - (e ++ data).length % 4)⟩,
        sectorsToErase lse a ((e ++ data).length - (e ++ data).length % 4),
        true⟩ := by
  simp only [rboot_write_flash]
  split
  · rename_i hc
    exfalso
    omega
  · rfl

theorem write_flash_shift (flash : Nat → Nat) (a ssec : Nat) (lse : Int) (e xs ys : List Nat) :
    rboot_write_flash flash ⟨a, ssec, lse, e ++ xs⟩ ys
      = rboot_write_flash flash ⟨a, ssec, lse, e⟩ (xs ++ ys) := by
  simp only [rboot_write_flash, List.append_assoc]

theorem write_flash_append (flash : Nat → Nat) (st : rboot_write_status) (xs ys : List Nat) :
    (rboot_write_flash (rboot_write_flash flash st xs).flash
        (rboot_write_flash flash st xs).status ys).flash
      = (rboot_write_flash flash st (xs ++ ys)).flash
    ∧ (rboot_write_flash (rboot_write_flash flash st xs).flash
        (rboot_write_flash flash st xs).status ys).status
      = (rboot_write_flash flash st (xs ++ ys)).status := by
  obtain ⟨a, ssec, lse, e⟩ := st
  by_cases h1 : (e ++ xs).length < 4
  · rw [write_flash_eq_small flash a ssec lse e xs h1, WriteResult.flash_mk,
      WriteResult.status_mk]
    have h := write_flash_shift flash a ssec lse e xs ys
    exact ⟨congrArg WriteResult.flash h, congrArg WriteResult.status h⟩
  · push_neg at h1
    rw [write_flash_eq_pos flash a ssec lse e xs h1, WriteResult.flash_mk,
      WriteResult.status_mk]
    set B1 := e ++ xs with hB1
    set w1 := B1.length - B1.length % 4 with hw1
    set F1 := writeBytes (eraseSectors flash (sectorsToErase lse a w1)) a (B1.take w1) with hF1
    set MX := max lse (((a + w1 - 1) / SECTOR_SIZE : Nat) : Int) with hMX
    have hlB1 : B1.length = e.length + xs.length := by rw [hB1]; simp
    have hbig : 4 ≤ (e ++ (xs ++ ys)).length := by
      simp only [List.length_append]
      omega
    by_cases h2 : (B1.drop w1 ++ ys).length < 4
    · rw [write_flash_eq_small F1 (a + w1) ssec MX (B1.drop w1) ys h2,
        WriteResult.flash_mk, WriteResult.status_mk,
        write_flash_eq_pos flash a ssec lse e (xs ++ ys) hbig,
        WriteResult.flash_mk, WriteResult.status_mk,
        ← List.append_assoc e xs ys, ← hB1]
      set B := B1 ++ ys with hB
      set w := B.length - B.length % 4 with hw
      have h2' : B1.length - w1 + ys.length < 4 := by
        simpa [List.length_append, List.length_drop] using h2
      clear_value B1 w1 F1 MX B w
      have hlB : B.length = B1.length + ys.length := by rw [hB]; simp
      have hww : w = w1 := by omega
      constructor
      · rw [hww, hB, List.take_append_of_le_length (by omega), hF1]
      · rw [hww, hB, List.drop_append_of_le_length (by omega), hMX]
    · push_neg at h2
      rw [write_flash_eq_pos F1 (a + w1) ssec MX (B1.drop w1) ys h2,
        WriteResult.flash_mk, WriteResult.status_mk,
        write_flash_eq_pos flash a ssec lse e (xs ++ ys) hbig,
        WriteResult.flash_mk, WriteResult.status_mk,
        ← List.append_assoc e xs ys, ← hB1]
      set B2 := B1.drop w1 ++ ys with hB2
      set w2 := B2.length - B2.length % 4 with hw2
      set B := B1 ++ ys with hB
      set w := B.length - B.length % 4 with hw
      have hlB2p : (B1.drop w1 ++ ys).length = B1.length - w1 + ys.length := by
        simp [List.length_append, List.length_drop]
      clear_value B1 w1 F1 MX B2 w2 B w
      have hlB : B.length = B1.length + ys.length := by rw [hB]; simp
      have hlB2 : B2.length = B1.length - w1 + ys.length := by rw [hB2, hlB2p]
      have hw1le : w1 ≤ B1.length := by omega
      have hww : w = w1 + w2 := by omega
      have hB2' : B2 = B.drop w1 := by
        rw [hB2, hB, List.drop_append_of_le_length hw1le]
      constructor
      · funext x
        rw [hF1, hMX]
        simp only [writeBytes_apply, eraseSectors_apply, List.length_take]
        have hm1 : min w1 B1.length = w1 := by omega
        have hm2 : min w2 B2.length = w2 := by omega
        have hmw : min w B.length = w := by omega
        rw [hm1, hm2, hmw]
        simp only [mem_sectorsToErase, max_lt_iff, SECTOR_SIZE]
        split_ifs <;>
          first
          | rfl
          | (exfalso; omega)
          | (rw [getD_take _ _ _ _ (by omega), getD_take _ _ _ _ (by omega), hB2', getD_drop]
             congr 1
             omega)
          | (rw [getD_take _ _ _ _ (by omega), getD_take _ _ _ _ (by omega), hB,
              getD_append_left _ _ _ _ (by omega)])
      · rw [hMX, hB2', List.drop_drop, (show w1 + w2 = w by omega)]
        simp only [rboot_write_status.mk.injEq, and_true, true_and]
        refine ⟨by omega, ?_⟩
        simp only [SECTOR_SIZE]
        omega

theorem writeMany_after (flash : Nat → Nat) (st : rboot_write_status) (data : List Nat)
    (chunks : List (List Nat)) :
    writeMany ((rboot_write_flash flash st data).flash, (rboot_write_flash flash st data).status)
        chunks
      = ((rboot_write_flash flash st (data ++ chunks.flatten)).flash,
          (rboot_write_flash flash st (data ++ chunks.flatten)).status) := by
  induction chunks generalizing flash st data with
  | nil => simp [writeMany]
  | cons c cs ih =>
    obtain ⟨hf, hs⟩ := write_flash_append flash st data c
    calc writeMany
          ((rboot_write_flash flash st data).flash, (rboot_write_flash flash st data).status)
          (c :: cs)
        = writeMany
            ((rboot_write_flash (rboot_write_flash flash st data).flash
                (rboot_write_flash flash st data).status c).flash,
              (rboot_write_flash (rboot_write_flash flash st data).flash
                (rboot_write_flash flash st data).status c).status) cs := by
          simp [writeMany]
      _ = writeMany
            ((rboot_write_flash flash st (data ++ c)).flash,
              (rboot_write_flash flash st (data ++ c)).status) cs := by rw [hf, hs]
      _ = ((rboot_write_flash flash st ((data ++ c) ++ cs.flatten)).flash,
            (rboot_write_flash flash st ((data ++ c) ++ cs.flatten)).status) := ih flash st (data ++ c)
      _ = _ := by simp [List.flatten_cons, List.append_assoc]

/-- C1: for every byte stream and every way of splitting it into chunks, a
sequence of `rboot_write_flash` calls on a session created by
`rboot_write_init start_addr` produces exactly the same final flash
contents as a single `rboot_write_flash` call with the whole stream. -/
theorem write_flash_chunk_invariance (flash : Nat → Nat) (start_addr : Nat)
    (chunks : List (List Nat)) :
    (writeMany (flash, rboot_write_init start_addr) chunks).1
      = (rboot_write_flash flash (rboot_write_init start_addr) chunks.flatten).flash := by
  have h0 : rboot_write_flash flash (rboot_write_init start_addr) [] =
      ⟨flash, rboot_write_init start_addr, [], true⟩ := by
    rw [rboot_write_init]
    exact write_flash_eq_small flash start_addr (start_addr / SECTOR_SIZE) (-1) [] []
      (by simp)
  have h := writeMany_after flash (rboot_write_init start_addr) [] chunks
  rw [h0] at h
  simp only [WriteResult.flash_mk, WriteResult.status_mk, List.nil_append] at h
  exact congrArg Prod.fst h

/-- C3: the residue invariant `extra_count < 4` holds on the write status
after `rboot_write_init` and after every `rboot_write_flash` call, from any
starting status, hence on every state of every write session. -/
theorem extra_count_invariant :
    (∀ start_addr, (rboot_write_init start_addr).extra_count < 4)
    ∧ ∀ (flash : Nat → Nat) (st : rboot_write_status) (data : List Nat),
        ((rboot_write_flash flash st data).status).extra_count < 4 := by
  constructor
  · intro s
    simp [rboot_write_init, rboot_write_status.extra_count]
  · intro flash st data
    simp only [rboot_write_flash]
    split
    · rename_i hc
      simp only [WriteResult.status_mk, rboot_write_status.extra_count]
      omega
    · simp only [WriteResult.status_mk, rboot_write_status.extra_count, List.length_drop]
      omega

/-- C10: calling `rboot_write_flash` with an empty data block is a no-op
returning true: the flash contents, every field of the write status are
unchanged, and no sector is erased. -/
theorem write_flash_len_zero (flash : Nat → Nat) (st : rboot_write_status)
    (h : st.extra_count < 4) :
    rboot_write_flash flash st [] = ⟨flash, st, [], true⟩ := by
  obtain ⟨a, ssec, lse, e⟩ := st
  have h' : (e ++ ([] : List Nat)).length < 4 := by
    simpa [rboot_write_status.extra_count] using h
  rw [write_flash_eq_small flash a ssec lse e [] h']
  simp

theorem write_flash_len_zero_witness :
    (⟨100, 0, -1, [7, 8]⟩ : rboot_write_status).extra_count < 4
    ∧ rboot_write_flash (fun _ => 255) ⟨100, 0, -1, [7, 8]⟩ []
        = ⟨fun _ => 255, ⟨100, 0, -1, [7, 8]⟩, [], true⟩ :=
  ⟨by decide, write_flash_len_zero (fun _ => 255) ⟨100, 0, -1, [7, 8]⟩ (by decide)⟩

/-! ### Configuration store (§4.1) -/

/-- Number of ROM slots provided for in the Configuration Block. -/
def MAX_ROMS : Nat := 4

/-- Number of bytes of the configuration sector occupied by the
Configuration Block. -/
def CONFIG_SIZE : Nat := 4 + 4 * MAX_ROMS

/-- Modelled from the spec: the Configuration Block (§3): current slot,
slot count, flags/mode bits, and the ordered slot offset table.  The
`rboot_config` struct itself lives in `rboot.h`, which is not part of the
tree. -/
structure rboot_config where
  current_rom : Nat
  count : Nat
  mode : Nat
  roms : List Nat
deriving Repr, DecidableEq

/-- A well-formed Configuration Block: byte-sized scalar fields, at most
`MAX_ROMS` slots, one 32-bit offset per slot. -/
def rboot_config.valid (c : rboot_config) : Prop :=
  c.current_rom < 256 ∧ c.mode < 256 ∧ c.count ≤ MAX_ROMS ∧ c.roms.length = c.count ∧
    ∀ r ∈ c.roms, r < 4294967296

instance (c : rboot_config) : Decidable c.valid := by
  unfold rboot_config.valid
  infer_instance

/-- Little-endian byte serialisation of a 32-bit word. -/
def encodeWord (w : Nat) : List Nat :=
  [w % 256, w / 256 % 256, w / 65536 % 256, w / 16777216 % 256]

/-- Little-endian 32-bit word from four bytes. -/
def decodeWord (b0 b1 b2 b3 : Nat) : Nat :=
  b0 + 256 * b1 + 65536 * b2 + 16777216 * b3

def encodeRoms : List Nat → List Nat
  | [] => []
  | r :: rs => encodeWord r ++ encodeRoms rs

def decodeRoms (bs : List Nat) : Nat → List Nat
  | 0 => []
  | n + 1 =>
    decodeWord (bs.getD 0 0) (bs.getD 1 0) (bs.getD 2 0) (bs.getD 3 0)
      :: decodeRoms (bs.drop 4) n

/-- Modelled from the spec: byte layout of the Configuration Block inside
the configuration sector.  The spec fixes the fields (§3) but not their
byte order; the layout chosen here is byte 0 `current_slot`, byte 1
`slot_count`, byte 2 flags/mode, byte 3 reserved, then `MAX_ROMS`
little-endian 32-bit slot offsets. -/
def encodeConfig (c : rboot_config) : List Nat :=
  [c.current_rom % 256, c.count % 256, c.mode % 256, 0] ++
    encodeRoms (c.roms.take MAX_ROMS ++ List.replicate (MAX_ROMS - c.roms.length) 0)

def decodeConfig (bs : List Nat) : rboot_config :=
  { current_rom := bs.getD 0 0
    count := bs.getD 1 0
    mode := bs.getD 2 0
    roms := decodeRoms (bs.drop 4) (bs.getD 1 0) }

/-- Modelled from the spec: `get_config()` reads the reserved sector and
returns a copy of the Configuration Block; no side effects (§4.1).  The
configuration sector is modelled by its byte contents `sector`. -/
def rboot_get_config (sector : Nat → Nat) : rboot_config :=
  decodeConfig (readRange sector 0 CONFIG_SIZE)

/-- Erase the configuration sector (bytes `[0, SECTOR_SIZE)` of the
modelled sector). -/
def eraseConfigSector (sector : Nat → Nat) : Nat → Nat :=
  fun a => if a < SECTOR_SIZE then 255 else sector a

/-- Modelled from the spec: `set_config(block)` reads the whole sector,
erases it, then rewrites it with the serialised block followed by the
preserved application-owned bytes of the sector (§4.1). -/
def rboot_set_config (sector : Nat → Nat) (conf : rboot_config) : Nat → Nat :=
  writeBytes (eraseConfigSector sector) 0
    (encodeConfig conf ++ (readRange sector 0 SECTOR_SIZE).drop CONFIG_SIZE)

/-- Modelled from the spec: `get_current_slot()` is
`get_config().current_slot` (§4.1). -/
def rboot_get_current_rom (sector : Nat → Nat) : Nat :=
  (rboot_get_config sector).current_rom

/-- Modelled from the spec: `set_current_slot(index)` loads the full
configuration, overwrites only `current_slot`, and performs a full
`set_config` (§4.1). -/
def rboot_set_current_rom (sector : Nat → Nat) (rom : Nat) : Nat → Nat :=
  rboot_set_config sector { rboot_get_config sector with current_rom := rom }

theorem length_encodeWord (w : Nat) : (encodeWord w).length = 4 := rfl

theorem length_encodeRoms (rs : List Nat) : (encodeRoms rs).length = 4 * rs.length := by
  induction rs with
  | nil => rfl
  | cons r rs ih => simp [encodeRoms, length_encodeWord, ih]; omega

theorem length_encodeConfig (c : rboot_config) : (encodeConfig c).length = CONFIG_SIZE := by
  simp [encodeConfig, length_encodeRoms, CONFIG_SIZE, MAX_ROMS]
  omega

theorem decodeRoms_encodeRoms (n : Nat) (rs : List Nat) (hn : n ≤ rs.length)
    (hb : ∀ r ∈ rs, r < 4294967296) :
    decodeRoms (encodeRoms rs) n = rs.take n := by
  induction n generalizing rs with
  | zero => simp [decodeRoms]
  | succ m ih =>
    cases rs with
    | nil => simp at hn
    | cons r rest =>
      have hr : r < 4294967296 := hb r (by simp)
      have hdrop : (encodeRoms (r :: rest)).drop 4 = encodeRoms rest := by
        simp [encodeRoms, encodeWord]
      have hg0 : (encodeRoms (r :: rest)).getD 0 0 = r % 256 := by
        simp [encodeRoms, encodeWord]
      have hg1 : (encodeRoms (r :: rest)).getD 1 0 = r / 256 % 256 := by
        simp [encodeRoms, encodeWord]
      have hg2 : (encodeRoms (r :: rest)).getD 2 0 = r / 65536 % 256 := by
        simp [encodeRoms, encodeWord]
      have hg3 : (encodeRoms (r :: rest)).getD 3 0 = r / 16777216 % 256 := by
        simp [encodeRoms, encodeWord]
      simp only [decodeRoms, hdrop, hg0, hg1, hg2, hg3, List.take_succ_cons]
      congr 1
      · simp only [decodeWord]
        omega
      · exact ih rest (by simpa using hn) (fun x hx => hb x (by simp [hx]))

theorem readRange_eq (f : Nat → Nat) (off n : Nat) (l : List Nat) (hl : l.length = n)
    (h : ∀ i, i < n → f (off + i) = l.getD i 0) : readRange f off n = l := by
  induction n generalizing off l with
  | zero =>
    rw [List.length_eq_zero] at hl
    subst hl
    rfl
  | succ m ih =>
    cases l with
    | nil => simp at hl
    | cons b bs =>
      simp only [readRange]
      congr 1
      · simpa using h 0 (by omega)
      · apply ih (off + 1) bs (by simpa using hl)
        intro i hi
        have hx := h (i + 1) (by omega)
        have ha : off + (i + 1) = (off + 1) + i := by omega
        rw [ha] at hx
        simpa using hx

theorem set_config_apply_low (sector : Nat → Nat) (c : rboot_config) (a : Nat)
    (ha : a < CONFIG_SIZE) :
    rboot_set_config sector c a = (encodeConfig c).getD a 0 := by
  unfold rboot_set_config
  rw [writeBytes_apply]
  have hlen : (encodeConfig c ++ (readRange sector 0 SECTOR_SIZE).drop CONFIG_SIZE).length
      = SECTOR_SIZE := by
    simp [length_encodeConfig, length_readRange, CONFIG_SIZE, MAX_ROMS, SECTOR_SIZE]
  rw [hlen]
  have ha' : a < 20 := by simpa [CONFIG_SIZE, MAX_ROMS] using ha
  rw [if_pos (⟨Nat.zero_le a, by simp [SECTOR_SIZE]; omega⟩ : 0 ≤ a ∧ a < 0 + SECTOR_SIZE)]
  rw [Nat.sub_zero, getD_append_left _ _ _ _ (by rw [length_encodeConfig]; exact ha)]

/-- C2: for every configuration block written via `rboot_set_config`, every
byte of the configuration sector outside the block's byte range has the
same value after the call as before it. -/
theorem rboot_set_config_preserves (sector : Nat → Nat) (c : rboot_config) (a : Nat)
    (h1 : CONFIG_SIZE ≤ a) (h2 : a < SECTOR_SIZE) :
    rboot_set_config sector c a = sector a := by
  unfold rboot_set_config
  rw [writeBytes_apply]
  have hlen : (encodeConfig c ++ (readRange sector 0 SECTOR_SIZE).drop CONFIG_SIZE).length
      = SECTOR_SIZE := by
    simp [length_encodeConfig, length_readRange, CONFIG_SIZE, MAX_ROMS, SECTOR_SIZE]
  rw [hlen]
  rw [if_pos (⟨Nat.zero_le a, by omega⟩ : 0 ≤ a ∧ a < 0 + SECTOR_SIZE)]
  rw [Nat.sub_zero, getD_append_right _ _ _ _ (by rw [length_encodeConfig]; exact h1),
    length_encodeConfig, getD_drop]
  have hi : CONFIG_SIZE + (a - CONFIG_SIZE) = a := by omega
  rw [hi, getD_readRange sector 0 SECTOR_SIZE a h2, Nat.zero_add]

theorem config_roundtrip (sector : Nat → Nat) (c : rboot_config) (h : c.valid) :
    rboot_get_config (rboot_set_config sector c) = c := by
  obtain ⟨h1, h2, h3, h4, h5⟩ := h
  have h3' : c.count ≤ 4 := by simpa [MAX_ROMS] using h3
  unfold rboot_get_config
  have hread : readRange (rboot_set_config sector c) 0 CONFIG_SIZE = encodeConfig c := by
    apply readRange_eq _ _ _ _ (length_encodeConfig c)
    intro i hi
    rw [Nat.zero_add]
    exact set_config_apply_low sector c i hi
  rw [hread]
  have hcur : (encodeConfig c).getD 0 0 = c.current_rom := by
    simp [encodeConfig, Nat.mod_eq_of_lt h1]
  have hcnt : (encodeConfig c).getD 1 0 = c.count := by
    simp [encodeConfig, Nat.mod_eq_of_lt (by omega : c.count < 256)]
  have hmode : (encodeConfig c).getD 2 0 = c.mode := by
    simp [encodeConfig, Nat.mod_eq_of_lt h2]
  have hdrop4 : (encodeConfig c).drop 4
      = encodeRoms (c.roms.take MAX_ROMS ++ List.replicate (MAX_ROMS - c.roms.length) 0) := by
    simp [encodeConfig]
  have hlenpad :
      (c.roms.take MAX_ROMS ++ List.replicate (MAX_ROMS - c.roms.length) 0).length = 4 := by
    simp [List.length_append, List.length_take, List.length_replicate, MAX_ROMS]
    omega
  have hpadmem : ∀ r ∈ c.roms.take MAX_ROMS ++ List.replicate (MAX_ROMS - c.roms.length) 0,
      r < 4294967296 := by
    intro r hr
    rcases List.mem_append.mp hr with hr' | hr'
    · exact h5 r (List.take_subset _ _ hr')
    · rw [List.eq_of_mem_replicate hr']
      omega
  have hroms : decodeRoms ((encodeConfig c).drop 4) c.count = c.roms := by
    rw [hdrop4, decodeRoms_encodeRoms c.count _ (by omega) hpadmem,
      List.take_append_of_le_length (by simp [List.length_take, MAX_ROMS]; omega),
      List.take_take]
    have hmin : min c.count MAX_ROMS = c.count := by simp [MAX_ROMS]; omega
    rw [hmin, ← h4, List.take_length]
  simp only [decodeConfig, hcur, hcnt, hmode, hroms]

/-- C4: for every valid configuration block `c`, calling
`rboot_set_config c` and then `rboot_get_config` returns a configuration
equal to `c` in all fields of the Configuration Block. -/
theorem rboot_set_get_config_roundtrip (sector : Nat → Nat) (c : rboot_config)
    (h : c.valid) :
    rboot_get_config (rboot_set_config sector c) = c :=
  config_roundtrip sector c h

/-- Sector contents used by the concrete witnesses: a configuration with 2
slots at offsets 0x1000 and 0x81000 and current slot 0. -/
def exampleSector : Nat → Nat :=
  fun a => [0, 2, 0, 0, 0, 16, 0, 0, 0, 16, 8, 0, 0, 0, 0, 0, 0, 0, 0, 0].getD a 0

def exampleConf : rboot_config :=
  { current_rom := 1, count := 2, mode := 0, roms := [4096, 528384] }

theorem rboot_set_config_preserves_witness :
    (CONFIG_SIZE ≤ 100 ∧ 100 < SECTOR_SIZE)
    ∧ rboot_set_config exampleSector exampleConf 100 = exampleSector 100 :=
  ⟨by decide, rboot_set_config_preserves exampleSector exampleConf 100 (by decide) (by decide)⟩

theorem rboot_set_get_config_roundtrip_witness :
    exampleConf.valid
    ∧ rboot_get_config (rboot_set_config exampleSector exampleConf) = exampleConf :=
  ⟨by decide, rboot_set_get_config_roundtrip exampleSector exampleConf (by decide)⟩

theorem length_decodeRoms (n : Nat) (bs : List Nat) : (decodeRoms bs n).length = n := by
  induction n generalizing bs with
  | zero => rfl
  | succ m ih => simp [decodeRoms, ih]

theorem getD_lt_of_mem_lt (bs : List Nat) (k : Nat) (hb : ∀ b ∈ bs, b < 256) :
    bs.getD k 0 < 256 := by
  induction bs generalizing k with
  | nil => simp
  | cons b rest ih =>
    cases k with
    | zero => exact hb b (by simp)
    | succ j => simpa using ih j (fun x hx => hb x (by simp [hx]))

theorem decodeRoms_lt (n : Nat) (bs : List Nat) (hb : ∀ b ∈ bs, b < 256) :
    ∀ r ∈ decodeRoms bs n, r < 4294967296 := by
  induction n generalizing bs with
  | zero => simp [decodeRoms]
  | succ m ih =>
    intro r hr
    simp only [decodeRoms, List.mem_cons] at hr
    rcases hr with hr | hr
    · subst hr
      have g0 := getD_lt_of_mem_lt bs 0 hb
      have g1 := getD_lt_of_mem_lt bs 1 hb
      have g2 := getD_lt_of_mem_lt bs 2 hb
      have g3 := getD_lt_of_mem_lt bs 3 hb
      simp only [decodeWord]
      omega
    · exact ih (bs.drop 4) (fun x hx => hb x (List.drop_subset _ _ hx)) r hr

theorem forall_mem_readRange (f : Nat → Nat) (off n : Nat)
    (h : ∀ a, off ≤ a → a < off + n → f a < 256) :
    ∀ b ∈ readRange f off n, b < 256 := by
  induction n generalizing off with
  | zero => simp [readRange]
  | succ m ih =>
    intro b hb
    simp only [readRange, List.mem_cons] at hb
    rcases hb with hb | hb
    · subst hb
      exact h off (Nat.le_refl _) (by omega)
    · exact ih (off + 1) (fun x hx hx' => h x (by omega) (by omega)) b hb

/-- C8: for every valid slot index, `rboot_set_current_rom` rewrites the
whole configuration such that `rboot_get_current_rom` subsequently returns
that index while every other configuration field, in particular the slot
offset table, is unchanged. -/
theorem rboot_set_current_rom_spec (sector : Nat → Nat) (rom : Nat)
    (hb : ∀ a, a < CONFIG_SIZE → sector a < 256)
    (hcount : (rboot_get_config sector).count ≤ MAX_ROMS)
    (hrom : rom < (rboot_get_config sector).count) :
    rboot_get_current_rom (rboot_set_current_rom sector rom) = rom
    ∧ (rboot_get_config (rboot_set_current_rom sector rom)).roms
        = (rboot_get_config sector).roms
    ∧ (rboot_get_config (rboot_set_current_rom sector rom)).count
        = (rboot_get_config sector).count
    ∧ (rboot_get_config (rboot_set_current_rom sector rom)).mode
        = (rboot_get_config sector).mode := by
  have hbytes : ∀ b ∈ readRange sector 0 CONFIG_SIZE, b < 256 :=
    forall_mem_readRange sector 0 CONFIG_SIZE (fun a ha ha' => hb a (by omega))
  set c := rboot_get_config sector with hc
  have hcount4 : c.count ≤ 4 := by simpa [MAX_ROMS] using hcount
  have hmode : c.mode = (readRange sector 0 CONFIG_SIZE).getD 2 0 := by rw [hc]; rfl
  have hcnt : c.count = (readRange sector 0 CONFIG_SIZE).getD 1 0 := by rw [hc]; rfl
  have hromsdef : c.roms
      = decodeRoms ((readRange sector 0 CONFIG_SIZE).drop 4)
          ((readRange sector 0 CONFIG_SIZE).getD 1 0) := by rw [hc]; rfl
  have hvalid : ({ c with current_rom := rom } : rboot_config).valid := by
    refine ⟨?_, ?_, hcount, ?_, ?_⟩
    · show rom < 256
      omega
    · rw [hmode]
      exact getD_lt_of_mem_lt _ 2 hbytes
    · show c.roms.length = c.count
      rw [hromsdef, length_decodeRoms, hcnt]
    · show ∀ r ∈ c.roms, r < 4294967296
      rw [hromsdef]
      exact decodeRoms_lt _ _ (fun x hx => hbytes x (List.drop_subset _ _ hx))
  have hstep : rboot_get_config (rboot_set_current_rom sector rom)
      = { c with current_rom := rom } := by
    unfold rboot_set_current_rom
    rw [← hc]
    exact config_roundtrip sector _ hvalid
  refine ⟨?_, ?_, ?_, ?_⟩ <;> simp [rboot_get_current_rom, hstep]

theorem rboot_set_current_rom_witness :
    ((∀ a, a < CONFIG_SIZE → exampleSector a < 256)
      ∧ (rboot_get_config exampleSector).count ≤ MAX_ROMS
      ∧ 1 < (rboot_get_config exampleSector).count)
    ∧ rboot_get_current_rom (rboot_set_current_rom exampleSector 1) = 1
    ∧ (rboot_get_config (rboot_set_current_rom exampleSector 1)).roms
        = (rboot_get_config exampleSector).roms := by
  have h := rboot_set_current_rom_spec exampleSector 1 (by decide) (by decide) (by decide)
  exact ⟨⟨by decide, by decide, by decide⟩, h.1, h.2.1⟩

/-! ### Image verifier (§4.4) -/

/-- Magic byte marking a firmware image header. -/
def IMAGE_MAGIC : Nat := 233

/-- Maximum number of segment descriptors accepted as structurally sane. -/
def MAX_SEGMENTS : Nat := 16

/-- Declared bound a structurally sane image must fit in. -/
def MAX_IMAGE_SIZE : Nat := 1048576

/-- 8-bit checksum over a byte list: XOR accumulator. -/
def checksum8 (l : List Nat) : Nat := l.foldl (fun acc b => acc ^^^ b) 0

/-- Lengths of the segments described by an 8-byte-per-entry descriptor
table (4 bytes load address, 4 bytes length, little endian). -/
def segLens : List Nat → List Nat
  | _ :: _ :: _ :: _ :: c0 :: c1 :: c2 :: c3 :: rest => decodeWord c0 c1 c2 c3 :: segLens rest
  | _ => []

/-- Modelled from the spec: structural verification of the image metadata
(§4.4, §6): byte 0 magic marker, byte 1 segment count, byte 2 an 8-bit
checksum over the header/segment metadata (excluding the checksum byte
itself), byte 3 reserved, then the segment descriptor table.  Returns the
verdict, the total valid image length, and a static error message on
failure. -/
def verifyMeta (meta : List Nat) : Bool × Nat × Option String :=
  if meta.getD 0 0 ≠ IMAGE_MAGIC then (false, 0, some "bad magic")
  else if meta.getD 2 0 ≠ checksum8 (meta.take 2 ++ meta.drop 3) then
    (false, 0, some "checksum mismatch")
  else if 1 ≤ (meta.length - 4) / 8 ∧ (meta.length - 4) / 8 ≤ MAX_SEGMENTS
      ∧ (segLens (meta.drop 4)).sum ≤ MAX_IMAGE_SIZE then
    (true, meta.length + (segLens (meta.drop 4)).sum, none)
  else (false, 0, some "invalid segment table")

/-- Modelled from the spec: `verify_image(offset)` reads the image header
and segment descriptors at `offset` and validates magic, checksum and
segment-table sanity; read-only over flash (§4.4). -/
def rboot_verify_image (f : Nat → Nat) (off : Nat) : Bool × Nat × Option String :=
  verifyMeta (readRange f off (4 + 8 * f (off + 1)))

theorem verify_image_congr (f g : Nat → Nat) (off : Nat)
    (h : ∀ a, off ≤ a → a < off + (4 + 8 * f (off + 1)) → f a = g a) :
    rboot_verify_image f off = rboot_verify_image g off := by
  have h1 : f (off + 1) = g (off + 1) := h (off + 1) (by omega) (by omega)
  unfold rboot_verify_image
  rw [← h1]
  congr 1
  exact readRange_congr f g off (4 + 8 * f (off + 1)) h

theorem readRange_update_inside (f : Nat → Nat) (n : Nat) (off p v : Nat)
    (h1 : off ≤ p) (h2 : p < off + n) :
    readRange (Function.update f p v) off n = (readRange f off n).set (p - off) v := by
  induction n generalizing off with
  | zero => omega
  | succ m ih =>
    by_cases hp : p = off
    · subst hp
      simp only [readRange, Nat.sub_self, List.set_cons_zero, Function.update_same]
      congr 1
      apply readRange_congr
      intro a ha ha'
      exact Function.update_noteq (show a ≠ p by omega) v f
    · have hidx : p - off = (p - (off + 1)) + 1 := by omega
      simp only [readRange, hidx, List.set_cons_succ]
      congr 1
      · exact Function.update_noteq (show off ≠ p by omega) v f
      · exact ih (off + 1) (by omega) (by omega)

theorem getD_set_self (l : List Nat) (i : Nat) (v d : Nat) (h : i < l.length) :
    (l.set i v).getD i d = v := by
  induction l generalizing i with
  | nil => simp at h
  | cons b bs ih =>
    cases i with
    | zero => rfl
    | succ j => simpa using ih j (by simpa using h)

theorem getD_set_ne (l : List Nat) (i j : Nat) (v d : Nat) (h : i ≠ j) :
    (l.set i v).getD j d = l.getD j d := by
  induction l generalizing i j with
  | nil => simp
  | cons b bs ih =>
    cases i with
    | zero =>
      cases j with
      | zero => omega
      | succ j' => rfl
    | succ i' =>
      cases j with
      | zero => rfl
      | succ j' => simpa using ih i' j' (by omega)

theorem take_set_of_le (l : List Nat) (n i : Nat) (v : Nat) (h : n ≤ i) :
    (l.set i v).take n = l.take n := by
  induction l generalizing n i with
  | nil => simp
  | cons b bs ih =>
    cases n with
    | zero => simp
    | succ m =>
      cases i with
      | zero => omega
      | succ i' => simpa using ih m i' (by omega)

theorem drop_set_of_lt (l : List Nat) (n i : Nat) (v : Nat) (h : i < n) :
    (l.set i v).drop n = l.drop n := by
  induction l generalizing n i with
  | nil => simp
  | cons b bs ih =>
    cases n with
    | zero => omega
    | succ m =>
      cases i with
      | zero => simp
      | succ i' => simpa using ih m i' (by omega)

theorem xor_pow_ne_self (x k : Nat) : x ^^^ 2 ^ k ≠ x := by
  intro h
  have h2 : (x ^^^ x) ^^^ 2 ^ k = x ^^^ x := by rw [Nat.xor_assoc, h]
  simp only [Nat.xor_self, Nat.zero_xor] at h2
  exact absurd h2 (by positivity : (0:Nat) < 2 ^ k).ne'

/-- C5: for every image stored in flash that verifies as valid, flipping
any single bit of the checksum byte makes `rboot_verify_image` return
invalid with a non-null static error message, while changing a byte that
is neither the checksum nor header/segment metadata leaves the verdict
valid and unchanged. -/
theorem rboot_verify_image_corruption (f : Nat → Nat) (off len : Nat)
    (hvalid : rboot_verify_image f off = (true, len, none)) :
    (∀ k, k < 8 →
        (rboot_verify_image (Function.update f (off + 2) (f (off + 2) ^^^ 2 ^ k)) off).1 = false
          ∧ ((rboot_verify_image (Function.update f (off + 2) (f (off + 2) ^^^ 2 ^ k))
                off).2.2).isSome = true)
    ∧ ∀ a v, off + 4 + 8 * f (off + 1) ≤ a →
        rboot_verify_image (Function.update f a v) off = (true, len, none) := by
  constructor
  · intro k _hk
    set v' := f (off + 2) ^^^ 2 ^ k with hv'
    have hne1 : Function.update f (off + 2) v' (off + 1) = f (off + 1) :=
      Function.update_noteq (by omega) v' f
    have hmeta' : rboot_verify_image (Function.update f (off + 2) v') off
        = verifyMeta ((readRange f off (4 + 8 * f (off + 1))).set 2 v') := by
      unfold rboot_verify_image
      rw [hne1,
        readRange_update_inside f (4 + 8 * f (off + 1)) off (off + 2) v' (by omega) (by omega),
        (show off + 2 - off = 2 by omega)]
    set meta := readRange f off (4 + 8 * f (off + 1)) with hmeta
    have hlenm : meta.length = 4 + 8 * f (off + 1) := by
      rw [hmeta]; exact length_readRange _ _ _
    have hst : meta.getD 2 0 = f (off + 2) := by
      rw [hmeta]; exact getD_readRange f off _ 2 (by omega)
    unfold rboot_verify_image at hvalid
    rw [← hmeta] at hvalid
    unfold verifyMeta at hvalid
    split_ifs at hvalid with hm hc hs
    · exact absurd hvalid (by simp)
    · exact absurd hvalid (by simp)
    · push_neg at hm hc
      rw [hmeta']
      unfold verifyMeta
      rw [getD_set_ne meta 2 0 v' 0 (by omega), if_neg (not_not_intro hm),
        getD_set_self meta 2 v' 0 (by omega), take_set_of_le meta 2 2 v' (Nat.le_refl 2),
        drop_set_of_lt meta 3 2 v' (by omega),
        if_pos (by rw [← hc, hst]; exact xor_pow_ne_self (f (off + 2)) k)]
      exact ⟨rfl, rfl⟩
    · exact absurd hvalid (by simp)
  · intro a v ha
    rw [← hvalid]
    exact (verify_image_congr f (Function.update f a v) off (fun x hx hx' =>
      (Function.update_noteq (show x ≠ a by omega) v f).symm)).symm

/-- Flash contents holding a small valid image at offset 0: header
`[magic, count = 1, checksum, 0]`, one descriptor (load address 0,
length 4), then 4 payload bytes. -/
def exampleImage : Nat → Nat :=
  fun a => [233, 1, 236, 0, 0, 0, 0, 0, 4, 0, 0, 0, 9, 9, 9, 9].getD a 0

theorem rboot_verify_image_corruption_witness :
    rboot_verify_image exampleImage 0 = (true, 16, none)
    ∧ (rboot_verify_image
        (Function.update exampleImage (0 + 2) (exampleImage (0 + 2) ^^^ 2 ^ 0)) 0).1 = false
    ∧ rboot_verify_image (Function.update exampleImage 13 0) 0 = (true, 16, none) := by
  have h := rboot_verify_image_corruption exampleImage 0 16 (by decide)
  exact ⟨by decide, (h.1 0 (by decide)).1, h.2 13 0 (by decide)⟩

/-! ### Digest engine (§4.5) -/

/-- Chunk size used by the digest engine; an internal implementation
constant, not caller-visible (§4.5). -/
def CHUNK_SIZE : Nat := 512

/-- Modelled from the spec: `digest_image(offset, length, update_fn,
update_ctx)` reads the flash region `[offset, offset + length)` in bounded
chunks through the injected (fallible) flash read capability and feeds
each chunk, in order, to the caller-supplied update function; it returns
false exactly when a read fails, and the update function, returning no
status, cannot fail the call (§4.5, §9). -/
def rboot_digest_image {α : Type} (read : Nat → Nat → Option (List Nat)) (off len : Nat)
    (update_fn : α → List Nat → α) (ctx : α) : Bool × α :=
  if _h : len = 0 then (true, ctx)
  else
    match read off (min CHUNK_SIZE len) with
    | none => (false, ctx)
    | some chunk =>
      rboot_digest_image read (off + min CHUNK_SIZE len) (len - min CHUNK_SIZE len)
        update_fn (update_fn ctx chunk)
termination_by len
decreasing_by
  simp only [CHUNK_SIZE]
  omega

/-- C6: for every 4-byte-aligned offset and length, `rboot_digest_image`
feeds the update function a sequence of in-order, non-overlapping chunks
covering the flash region exactly once, so that for any update function
that accumulates like an incremental hash (joins under concatenation,
ignores empty input) the accumulated digest equals the digest of the whole
region read as one buffer. -/
theorem rboot_digest_image_equiv {α : Type} (f : Nat → Nat) (off len : Nat)
    (upd : α → List Nat → α) (ctx : α)
    (hoff : off % 4 = 0) (hlen : len % 4 = 0)
    (hnil : ∀ c, upd c [] = c)
    (hom : ∀ c xs ys, upd (upd c xs) ys = upd c (xs ++ ys)) :
    rboot_digest_image (fun a n => some (readRange f a n)) off len upd ctx
      = (true, upd ctx (readRange f off len)) := by
  induction len using Nat.strong_induction_on generalizing off ctx with
  | _ len ih =>
    rw [rboot_digest_image]
    split
    · rename_i h0
      subst h0
      rw [show readRange f off 0 = [] from rfl, hnil]
    · rename_i h0
      have hmin : 1 ≤ min CHUNK_SIZE len ∧ min CHUNK_SIZE len ≤ len
          ∧ (min CHUNK_SIZE len) % 4 = 0 := by
        simp only [CHUNK_SIZE]
        omega
      show rboot_digest_image (fun a n => some (readRange f a n))
          (off + min CHUNK_SIZE len) (len - min CHUNK_SIZE len) upd
          (upd ctx (readRange f off (min CHUNK_SIZE len)))
        = (true, upd ctx (readRange f off len))
      rw [ih (len - min CHUNK_SIZE len) (by omega) (off + min CHUNK_SIZE len)
          (upd ctx (readRange f off (min CHUNK_SIZE len))) (by omega) (by omega),
        hom, ← readRange_split f off (min CHUNK_SIZE len) len (by omega)]

/-- C7: `rboot_digest_image` returns false only when an underlying flash
read fails: whenever every read succeeds the call returns true, and the
success flag never depends on the caller-supplied update function or
context (the update function returns no status, so it cannot fail the
call). -/
theorem rboot_digest_image_fail_only_on_read {α β : Type}
    (read : Nat → Nat → Option (List Nat)) (off len : Nat)
    (upd : α → List Nat → α) (ctx : α) (upd' : β → List Nat → β) (ctx' : β) :
    ((∀ a n, (read a n).isSome = true) →
        (rboot_digest_image read off len upd ctx).1 = true)
    ∧ (rboot_digest_image read off len upd ctx).1
        = (rboot_digest_image read off len upd' ctx').1 := by
  induction len using Nat.strong_induction_on generalizing off ctx ctx' with
  | _ len ih =>
    by_cases h0 : len = 0
    · subst h0
      simp [rboot_digest_image]
    · have hmin : 1 ≤ min CHUNK_SIZE len ∧ min CHUNK_SIZE len ≤ len := by
        simp only [CHUNK_SIZE]
        omega
      cases hread : read off (min CHUNK_SIZE len) with
      | none =>
        rw [rboot_digest_image, dif_neg h0, hread, rboot_digest_image, dif_neg h0, hread]
        exact ⟨fun hr => absurd (hread ▸ hr off (min CHUNK_SIZE len)) (by simp), rfl⟩
      | some chunk =>
        rw [rboot_digest_image, dif_neg h0, hread, rboot_digest_image, dif_neg h0, hread]
        exact ⟨fun hr => ((ih (len - min CHUNK_SIZE len) (by omega) (off + min CHUNK_SIZE len)
            (upd ctx chunk) (upd' ctx' chunk)).1 hr),
          (ih (len - min CHUNK_SIZE len) (by omega) (off + min CHUNK_SIZE len)
            (upd ctx chunk) (upd' ctx' chunk)).2⟩

theorem rboot_digest_image_equiv_witness :
    rboot_digest_image (fun a n => some (readRange exampleImage a n)) 0 16
        (fun (c : List Nat) bs => c ++ bs) []
      = (true, [] ++ readRange exampleImage 0 16) :=
  rboot_digest_image_equiv exampleImage 0 16 (fun c bs => c ++ bs) [] (by decide) (by decide)
    (fun c => List.append_nil c) (fun c xs ys => List.append_assoc c xs ys)

theorem rboot_digest_image_fail_witness :
    (rboot_digest_image (fun a n => some (readRange exampleImage a n)) 0 8
        (fun (c : List Nat) bs => c ++ bs) []).1 = true :=
  (rboot_digest_image_fail_only_on_read (fun a n => some (readRange exampleImage a n)) 0 8
      (fun (c : List Nat) bs => c ++ bs) [] (fun (c : Nat) _ => c) 0).1 (fun _ _ => rfl)

/-! ### Volatile control block manager (§4.6) -/

/-- Modelled from the spec: the Volatile Control Block fields (§3): the
boot mode for the next reset and the slot actually booted.  The concrete
`rboot_rtc_data` struct lives in `rboot.h`, which is not part of the
tree. -/
structure rboot_rtc_data where
  next_mode : Nat
  last_slot : Nat
deriving Repr, DecidableEq

/-- Modelled from the spec: `set_rtc_data(d)` recomputes the checksum over
the supplied fields and writes the whole structure to the retained region
(§4.6).  The retained region is modelled as its byte list: the two data
bytes followed by the checksum byte. -/
def rboot_set_rtc_data (d : rboot_rtc_data) : List Nat :=
  [d.next_mode % 256, d.last_slot % 256,
    checksum8 [d.next_mode % 256, d.last_slot % 256]]

/-- Modelled from the spec: `get_rtc_data()` reads the retained region,
validates the checksum, and returns the data, or failure (`none`, treated
as absent) on a checksum mismatch (§4.6, design note §9). -/
def rboot_get_rtc_data (mem : List Nat) : Option rboot_rtc_data :=
  if mem.length = 3 ∧ mem.getD 2 0 = checksum8 [mem.getD 0 0, mem.getD 1 0] then
    some { next_mode := mem.getD 0 0, last_slot := mem.getD 1 0 }
  else none

theorem xor_right_cancel (x y z : Nat) (h : x ^^^ z = y ^^^ z) : x = y := by
  have h2 := congrArg (fun w => w ^^^ z) h
  simpa [Nat.xor_assoc, Nat.xor_self, Nat.xor_zero] using h2

theorem xor_left_cancel (x y z : Nat) (h : z ^^^ x = z ^^^ y) : x = y := by
  have h2 := congrArg (fun w => z ^^^ w) h
  simpa [← Nat.xor_assoc, Nat.xor_self, Nat.zero_xor] using h2

/-- C9: writing the control block and reading it back returns it with
success, and corrupting any byte of the stored structure between the two
calls makes the read fail (the checksum gates every read). -/
theorem rboot_rtc_roundtrip_and_integrity (d : rboot_rtc_data)
    (h1 : d.next_mode < 256) (h2 : d.last_slot < 256) :
    rboot_get_rtc_data (rboot_set_rtc_data d) = some d
    ∧ ∀ i v, i < 3 → v ≠ (rboot_set_rtc_data d).getD i 0 →
        rboot_get_rtc_data ((rboot_set_rtc_data d).set i v) = none := by
  have hm1 : d.next_mode % 256 = d.next_mode := Nat.mod_eq_of_lt h1
  have hm2 : d.last_slot % 256 = d.last_slot := Nat.mod_eq_of_lt h2
  constructor
  · unfold rboot_get_rtc_data rboot_set_rtc_data
    rw [if_pos ⟨rfl, rfl⟩]
    simp only [List.getD_cons_zero, List.getD_cons_succ]
    rw [hm1, hm2]
  · intro i v hi hv
    interval_cases i
    · simp only [rboot_set_rtc_data, List.getD_cons_zero] at hv
      simp only [rboot_set_rtc_data, rboot_get_rtc_data, List.set_cons_zero]
      rw [if_neg]
      rintro ⟨-, hchk⟩
      simp only [List.getD_cons_zero, List.getD_cons_succ, checksum8, List.foldl,
        Nat.zero_xor] at hchk
      exact hv (xor_right_cancel _ _ _ hchk).symm
    · simp only [rboot_set_rtc_data, List.getD_cons_zero, List.getD_cons_succ] at hv
      simp only [rboot_set_rtc_data, rboot_get_rtc_data, List.set_cons_zero,
        List.set_cons_succ]
      rw [if_neg]
      rintro ⟨-, hchk⟩
      simp only [List.getD_cons_zero, List.getD_cons_succ, checksum8, List.foldl,
        Nat.zero_xor] at hchk
      exact hv (xor_left_cancel _ _ _ hchk).symm
    · simp only [rboot_set_rtc_data, List.getD_cons_zero, List.getD_cons_succ, checksum8,
        List.foldl, Nat.zero_xor] at hv
      simp only [rboot_set_rtc_data, rboot_get_rtc_data, List.set_cons_zero,
        List.set_cons_succ]
      rw [if_neg]
      rintro ⟨-, hchk⟩
      simp only [List.getD_cons_zero, List.getD_cons_succ, checksum8, List.foldl,
        Nat.zero_xor] at hchk
      exact hv hchk

theorem rboot_rtc_roundtrip_witness :
    ((2:Nat) < 256 ∧ (1:Nat) < 256)
    ∧ rboot_get_rtc_data (rboot_set_rtc_data ⟨2, 1⟩) = some ⟨2, 1⟩
    ∧ rboot_get_rtc_data ((rboot_set_rtc_data ⟨2, 1⟩).set 0 7) = none := by
  have h := rboot_rtc_roundtrip_and_integrity ⟨2, 1⟩ (by decide) (by decide)
  exact ⟨⟨by decide, by decide⟩, h.1, h.2 0 7 (by decide) (by decide)⟩
